import Mathlib

/-!
Verification of the rate-analysis engine of the 1365 BlueOcean bid analyzer
(`src/app.py`), as a shallow embedding over rationals.  Monetary amounts and
percentages are modelled as `ℚ`; a base-price estimate is the pair
`(bssamt, bsisPlnprc)`.
-/

namespace BlueOcean

/-- Self-rate of one base-price estimate (src `app.py`:
`df1["SA_rate"] = df1["bsisPlnprc"] / df1["bssamt"] * 100`).
The estimate is the pair `(bssamt, bsisPlnprc)`. -/
def selfRate (e : ℚ × ℚ) : ℚ := e.2 / e.1 * 100

/-- Arithmetic mean of a list (src: `np.mean(c)` over a combination `c`). -/
def mean (l : List ℚ) : ℚ := l.sum / l.length

/-- Theoretical "1365" combination rate list (src `app.py` lines 488-497):
if at least 4 estimates are present, take the mean of every 4-element
combination of the self-rates and sort ascending; otherwise the list stays
empty. -/
def theoreticalRates (es : List (ℚ × ℚ)) : List ℚ :=
  if 4 ≤ es.length then
    (((es.map selfRate).sublistsLen 4).map mean).insertionSort (· ≤ ·)
  else []

/-- Theoretical rate table with the 1-based combination sequence number
(src `app.py` line 498: `df_rates["조합순번"] = range(1, len(df_rates) + 1)`,
assigned after the ascending sort). -/
def theoreticalRateTable (es : List (ℚ × ℚ)) : List (ℚ × ℕ) :=
  (theoreticalRates es).zip (List.range' 1 (theoreticalRates es).length)

/-- Claim C1: for `n ≥ 4` base-price estimates the theoretical rate set has
exactly `C(n,4)` elements, each the arithmetic mean of the self-rates of some
4-element combination (and conversely every 4-combination's mean occurs); the
result is sorted ascending and carries the stable 1-based sequence numbers
`1, …, C(n,4)`; for `n < 4` the set is empty. -/
theorem theoretical_rate_set_spec (es : List (ℚ × ℚ)) :
    (4 ≤ es.length →
      (theoreticalRates es).length = es.length.choose 4 ∧
      (theoreticalRates es).Sorted (· ≤ ·) ∧
      (∀ r ∈ theoreticalRates es,
        ∃ sub, sub.Sublist (es.map selfRate) ∧ sub.length = 4 ∧ r = mean sub) ∧
      (∀ sub, sub.Sublist (es.map selfRate) → sub.length = 4 →
        mean sub ∈ theoreticalRates es) ∧
      (theoreticalRateTable es).map Prod.snd = List.range' 1 (es.length.choose 4)) ∧
    (es.length < 4 → theoreticalRates es = []) := by
  constructor
  · intro h4
    have hdef : theoreticalRates es =
        (((es.map selfRate).sublistsLen 4).map mean).insertionSort (· ≤ ·) := by
      simp [theoreticalRates, h4]
    have hperm :
        List.Perm (theoreticalRates es) (((es.map selfRate).sublistsLen 4).map mean) := by
      rw [hdef]; exact List.perm_insertionSort _ _
    have hlen : (theoreticalRates es).length = es.length.choose 4 := by
      rw [hperm.length_eq, List.length_map, List.length_sublistsLen, List.length_map]
    refine ⟨hlen, ?_, ?_, ?_, ?_⟩
    · rw [hdef]; exact List.sorted_insertionSort _ _
    · intro r hr
      have hr2 : r ∈ ((es.map selfRate).sublistsLen 4).map mean := hperm.mem_iff.mp hr
      rcases List.mem_map.mp hr2 with ⟨sub, hsub, hmean⟩
      rcases List.mem_sublistsLen.mp hsub with ⟨hs, hl⟩
      exact ⟨sub, hs, hl, hmean.symm⟩
    · intro sub hs hl
      have hmem : sub ∈ (es.map selfRate).sublistsLen 4 :=
        List.mem_sublistsLen.mpr ⟨hs, hl⟩
      exact hperm.mem_iff.mpr (List.mem_map.mpr ⟨sub, hmem, rfl⟩)
    · rw [theoreticalRateTable, List.map_snd_zip, hlen]
      rw [List.length_range']
  · intro hlt
    simp [theoreticalRates, Nat.not_le.mpr hlt]

/-- Witness for C1: the spec's end-to-end scenario, four estimates with
self-rates `99.9, 100.0, 100.1, 100.2`. -/
theorem theoretical_rate_set_spec_witness :
    (theoreticalRates
        [((1000 : ℚ), 999), (1000, 1000), (1000, 1001), (1000, 1002)]).length =
      Nat.choose 4 4 ∧
    (theoreticalRates
        [((1000 : ℚ), 999), (1000, 1000), (1000, 1001), (1000, 1002)]).Sorted (· ≤ ·) :=
  ⟨((theoretical_rate_set_spec
        [((1000 : ℚ), 999), (1000, 1000), (1000, 1001), (1000, 1002)]).1
      (by decide)).1,
    ((theoretical_rate_set_spec
        [((1000 : ℚ), 999), (1000, 1000), (1000, 1001), (1000, 1002)]).1
      (by decide)).2.1⟩

/-- Reference base price (src `app.py` lines 483-485):
`base_price = df1.iloc[1]["bssamt"] if len(df1) > 1 else df1.iloc[0]["bssamt"]`,
taken over the estimate list `(bssamt, bsisPlnprc)`; `0` when no estimate row
was obtained (the initial `base_price = 0.0`). -/
def basePrice : List (ℚ × ℚ) → ℚ
  | [] => 0
  | [e] => e.1
  | _ :: e2 :: _ => e2.1

/-- Reconstructed assessment rate of one bid amount `B` (src `app.py` lines
564-565): `numerator = ((bidprcAmt - A_value) * 100) / sucs_rate + A_value;`
`rate = numerator * 100 / base_price`. -/
def bidRate (sucs bp A B : ℚ) : ℚ := ((B - A) * 100 / sucs + A) * 100 / bp

/-- Actual-branch rate reconstruction over the bid amounts (src `app.py` lines
563-567): the formula applies when `sucs_rate > 0 and base_price > 0`,
otherwise every rate is forced to the sentinel `0.0`. -/
def bidderRates (bids : List ℚ) (sucs bp A : ℚ) : List ℚ :=
  if 0 < sucs ∧ 0 < bp then bids.map (bidRate sucs bp A)
  else bids.map fun _ => 0

/-- Claim C2: with a positive success-rate threshold and a positive base
price, every bid amount `B` is reconstructed as
`((B - A) * 100 / sucs + A) * 100 / basePrice`, where the base price is the
`bssamt` of the second estimate when at least two exist and of the first
estimate otherwise. -/
theorem actual_rate_formula_spec (es : List (ℚ × ℚ)) (bids : List ℚ)
    (sucs A : ℚ) (h1 : 0 < sucs) (h2 : 0 < basePrice es) :
    bidderRates bids sucs (basePrice es) A =
      bids.map (fun B => ((B - A) * 100 / sucs + A) * 100 / basePrice es) ∧
    (∀ e1 e2 rest, es = e1 :: e2 :: rest → basePrice es = e2.1) ∧
    (∀ e1, es = [e1] → basePrice es = e1.1) := by
  refine ⟨?_, ?_, ?_⟩
  · simp only [bidderRates, if_pos (And.intro h1 h2)]
    rfl
  · intro e1 e2 rest hes; subst hes; rfl
  · intro e1 hes; subst hes; rfl

/-- Witness for C2: estimates with base amounts `50` and `100` (so the second
one, `100`, is the reference), `sucs = 88`, `A = 2`, one bid of `80`. -/
theorem actual_rate_formula_spec_witness :
    bidderRates [(80 : ℚ)] 88 (basePrice [((50 : ℚ), 49), (100, 99)]) 2 =
      [(80 : ℚ)].map
        (fun B => ((B - 2) * 100 / 88 + 2) * 100 / basePrice [((50 : ℚ), 49), (100, 99)]) :=
  (actual_rate_formula_spec [((50 : ℚ), 49), (100, 99)] [80] 88 2
    (by decide) (by decide)).1

/-- Claim C3: whenever the success-rate threshold or the base price is not
positive, every reconstructed rate is the sentinel `0`, for arbitrary bid
amounts (including zero or negative ones); the formula branch, where the
divisions happen, only runs with both divisors positive, hence nonzero. -/
theorem actual_rate_zero_sentinel_spec (bids : List ℚ) (sucs bp A : ℚ) :
    ((sucs ≤ 0 ∨ bp ≤ 0) → bidderRates bids sucs bp A = bids.map fun _ => 0) ∧
    ((sucs ≤ 0 ∨ bp ≤ 0) → ∀ r ∈ bidderRates bids sucs bp A, r = 0) ∧
    (0 < sucs ∧ 0 < bp → sucs ≠ 0 ∧ bp ≠ 0) := by
  have hzero : (sucs ≤ 0 ∨ bp ≤ 0) → bidderRates bids sucs bp A = bids.map fun _ => 0 := by
    intro h
    have hguard : ¬(0 < sucs ∧ 0 < bp) := by
      rcases h with h | h
      · exact fun hc => absurd hc.1 (not_lt.mpr h)
      · exact fun hc => absurd hc.2 (not_lt.mpr h)
    simp only [bidderRates, if_neg hguard]
  refine ⟨hzero, ?_, ?_⟩
  · intro h r hr
    rw [hzero h] at hr
    rcases List.mem_map.mp hr with ⟨_, _, hb⟩
    exact hb.symm
  · intro h
    exact ⟨ne_of_gt h.1, ne_of_gt h.2⟩

/-- Witness for C3: threshold `0` with bids `0`, `-5` and `7` all yield the
sentinel rate `0`. -/
theorem actual_rate_zero_sentinel_spec_witness :
    ∀ r ∈ bidderRates [0, -5, 7] 0 100 3, r = 0 :=
  (actual_rate_zero_sentinel_spec [0, -5, 7] 0 100 3).2.1 (Or.inl le_rfl)

/-- Number of rates inside the inclusive window `[s, e]` (src `app.py` line
270: `count = sum(start <= r <= end for r in rates_sorted)`; the count over
the sorted copy equals the count over the original list). -/
def countInWindow (rates : List ℚ) (s e : ℚ) : ℕ :=
  (rates.filter fun r => decide (s ≤ r ∧ r ≤ e)).length

/-- Minimum of a nonempty list given as head and tail (src `app.py` line 264:
`min_r = min(rates_sorted)`). -/
def hotLo (a : ℚ) (rest : List ℚ) : ℚ := rest.foldl min a

/-- Maximum of a nonempty list given as head and tail (src `app.py` line 264:
`max_r = max(rates_sorted)`). -/
def hotHi (a : ℚ) (rest : List ℚ) : ℚ := rest.foldl max a

/-- Window start positions visited by the hot-zone while loop (src `app.py`
lines 267-274: `start = min_r`, then `start += step` while `start <= max_r`).
For a positive step these are `lo + i * step` for
`i = 0, …, ⌊(hi - lo) / step⌋`. -/
def hotStarts (lo hi step : ℚ) : List ℚ :=
  (List.range (if 0 < step then Nat.floor ((hi - lo) / step) + 1 else 0)).map
    fun i : ℕ => lo + (i : ℚ) * step

/-- Body of the hot-zone search loop (src `app.py` lines 268-274): keep the
first window whose count strictly exceeds the best count so far. -/
def hzLoop (rates : List ℚ) (w : ℚ) :
    List ℚ → Option ℚ × Option ℚ × ℤ → Option ℚ × Option ℚ × ℤ
  | [], acc => acc
  | s :: rest, (bs, be, bc) =>
      if bc < (countInWindow rates s (s + w) : ℤ) then
        hzLoop rates w rest (some s, some (s + w), (countInWindow rates s (s + w) : ℤ))
      else hzLoop rates w rest (bs, be, bc)

/-- Hot-zone locator (src `app.py` `find_hot_zone`): `(None, None, 0)` on an
empty input, otherwise the best sliding window over the visited start
positions, with `best_count` initialised to `-1`. -/
def find_hot_zone (rates : List ℚ) (window step : ℚ) : Option ℚ × Option ℚ × ℤ :=
  match rates with
  | [] => (none, none, 0)
  | a :: rest =>
      hzLoop (a :: rest) window
        (hotStarts (hotLo a rest) (hotHi a rest) step) (none, none, -1)

lemma foldl_min_le_init (l : List ℚ) : ∀ a : ℚ, l.foldl min a ≤ a := by
  induction l with
  | nil => intro a; exact le_rfl
  | cons x xs ih =>
      intro a
      calc (x :: xs).foldl min a = xs.foldl min (min a x) := rfl
        _ ≤ min a x := ih (min a x)
        _ ≤ a := min_le_left a x

lemma init_le_foldl_max (l : List ℚ) : ∀ a : ℚ, a ≤ l.foldl max a := by
  induction l with
  | nil => intro a; exact le_rfl
  | cons x xs ih =>
      intro a
      calc a ≤ max a x := le_max_left a x
        _ ≤ xs.foldl max (max a x) := ih (max a x)
        _ = (x :: xs).foldl max a := rfl

lemma foldl_min_attained (l : List ℚ) :
    ∀ a : ℚ, l.foldl min a = a ∨ l.foldl min a ∈ l := by
  induction l with
  | nil => intro a; exact Or.inl rfl
  | cons x xs ih =>
      intro a
      have hstep : (x :: xs).foldl min a = xs.foldl min (min a x) := rfl
      rw [hstep]
      rcases ih (min a x) with h | h
      · rw [h]
        rcases min_choice a x with h2 | h2
        · exact Or.inl h2
        · exact Or.inr (by rw [h2]; exact List.mem_cons_self x xs)
      · exact Or.inr (List.mem_cons_of_mem x h)

lemma hotStarts_length (lo hi step : ℚ) (hstep : 0 < step) :
    (hotStarts lo hi step).length = Nat.floor ((hi - lo) / step) + 1 := by
  rw [hotStarts, List.length_map, List.length_range, if_pos hstep]

lemma hotStarts_get (lo hi step : ℚ) (i : ℕ) (h : i < (hotStarts lo hi step).length) :
    (hotStarts lo hi step).get ⟨i, h⟩ = lo + i * step := by
  simp only [hotStarts, List.get_eq_getElem, List.getElem_map, List.getElem_range]

lemma hotStarts_lt_iff (lo hi step : ℚ) (hstep : 0 < step) (hlh : lo ≤ hi) (i : ℕ) :
    i < (hotStarts lo hi step).length ↔ lo + i * step ≤ hi := by
  rw [hotStarts_length lo hi step hstep, Nat.lt_succ_iff,
    Nat.le_floor_iff (div_nonneg (sub_nonneg.mpr hlh) hstep.le), le_div_iff₀ hstep]
  constructor <;> intro h <;> linarith

lemma countInWindow_pos (rates : List ℚ) (s e x : ℚ) (hx : x ∈ rates)
    (h1 : s ≤ x) (h2 : x ≤ e) : 1 ≤ countInWindow rates s e := by
  have hmem : x ∈ rates.filter fun r => decide (s ≤ r ∧ r ≤ e) :=
    List.mem_filter.mpr ⟨hx, by simp [h1, h2]⟩
  exact List.length_pos.mpr (List.ne_nil_of_mem hmem)

lemma hzLoop_no_update (rates : List ℚ) (w : ℚ) :
    ∀ (l : List ℚ) (bs be : Option ℚ) (bc : ℤ),
      (∀ s ∈ l, (countInWindow rates s (s + w) : ℤ) ≤ bc) →
      hzLoop rates w l (bs, be, bc) = (bs, be, bc) := by
  intro l
  induction l with
  | nil => intro bs be bc _; rfl
  | cons s rest ih =>
      intro bs be bc h
      have hs : (countInWindow rates s (s + w) : ℤ) ≤ bc :=
        h s (List.mem_cons_self s rest)
      simp only [hzLoop, if_neg (not_lt.mpr hs)]
      exact ih bs be bc fun t ht => h t (List.mem_cons_of_mem s ht)

lemma hzLoop_argmax (rates : List ℚ) (w : ℚ) :
    ∀ (l : List ℚ) (bs be : Option ℚ) (bc : ℤ),
      (∃ s ∈ l, bc < (countInWindow rates s (s + w) : ℤ)) →
      ∃ k, ∃ hk : k < l.length,
        hzLoop rates w l (bs, be, bc) =
          (some (l.get ⟨k, hk⟩), some (l.get ⟨k, hk⟩ + w),
            (countInWindow rates (l.get ⟨k, hk⟩) (l.get ⟨k, hk⟩ + w) : ℤ)) ∧
        bc < (countInWindow rates (l.get ⟨k, hk⟩) (l.get ⟨k, hk⟩ + w) : ℤ) ∧
        (∀ j (hj : j < l.length),
          countInWindow rates (l.get ⟨j, hj⟩) (l.get ⟨j, hj⟩ + w) ≤
            countInWindow rates (l.get ⟨k, hk⟩) (l.get ⟨k, hk⟩ + w)) ∧
        (∀ j (hj : j < l.length), j < k →
          countInWindow rates (l.get ⟨j, hj⟩) (l.get ⟨j, hj⟩ + w) <
            countInWindow rates (l.get ⟨k, hk⟩) (l.get ⟨k, hk⟩ + w)) := by
  intro l
  induction l with
  | nil =>
      intro bs be bc h
      rcases h with ⟨s, hs, _⟩
      exact absurd hs (List.not_mem_nil s)
  | cons s rest ih =>
      intro bs be bc hex
      by_cases h1 : bc < (countInWindow rates s (s + w) : ℤ)
      · by_cases h2 : ∃ t ∈ rest,
            (countInWindow rates s (s + w) : ℤ) < (countInWindow rates t (t + w) : ℤ)
        · rcases ih (some s) (some (s + w)) (countInWindow rates s (s + w) : ℤ) h2 with
            ⟨k, hk, heq, hlt, hmax, hfirst⟩
          refine ⟨k + 1, Nat.succ_lt_succ hk, ?_, ?_, ?_, ?_⟩
          · simp only [hzLoop, if_pos h1]
            exact heq
          · exact h1.trans hlt
          · intro j hj
            match j, hj with
            | 0, _ => exact Nat.cast_le.mp hlt.le
            | j + 1, hj => exact hmax j (Nat.lt_of_succ_lt_succ hj)
          · intro j hj hjk
            match j, hj with
            | 0, _ => exact Nat.cast_lt.mp hlt
            | j + 1, hj => exact hfirst j (Nat.lt_of_succ_lt_succ hj) (Nat.lt_of_succ_lt_succ hjk)
        · push_neg at h2
          refine ⟨0, Nat.succ_pos rest.length, ?_, h1, ?_, ?_⟩
          · simp only [hzLoop, if_pos h1]
            exact hzLoop_no_update rates w rest (some s) (some (s + w)) _
              fun t ht => h2 t ht
          · intro j hj
            match j, hj with
            | 0, _ => exact le_rfl
            | j + 1, hj =>
                exact Nat.cast_le.mp (h2 (rest.get ⟨j, Nat.lt_of_succ_lt_succ hj⟩)
                  (rest.get_mem _ _))
          · intro j hj hjk
            exact absurd hjk (Nat.not_lt_zero j)
      · have hsle : (countInWindow rates s (s + w) : ℤ) ≤ bc := not_lt.mp h1
        have hex2 : ∃ t ∈ rest, bc < (countInWindow rates t (t + w) : ℤ) := by
          rcases hex with ⟨t, htm, hbc⟩
          rcases List.mem_cons.mp htm with h | h
          · exact absurd hbc (by rw [h]; exact not_lt.mpr hsle)
          · exact ⟨t, h, hbc⟩
        rcases ih bs be bc hex2 with ⟨k, hk, heq, hlt, hmax, hfirst⟩
        refine ⟨k + 1, Nat.succ_lt_succ hk, ?_, hlt, ?_, ?_⟩
        · simp only [hzLoop, if_neg h1]
          exact heq
        · intro j hj
          match j, hj with
          | 0, _ => exact Nat.cast_le.mp (hsle.trans hlt.le)
          | j + 1, hj => exact hmax j (Nat.lt_of_succ_lt_succ hj)
        · intro j hj hjk
          match j, hj with
          | 0, _ => exact Nat.cast_lt.mp (lt_of_le_of_lt hsle hlt)
          | j + 1, hj => exact hfirst j (Nat.lt_of_succ_lt_succ hj) (Nat.lt_of_succ_lt_succ hjk)

/-- Claim C4: for an empty input `find_hot_zone` yields `(None, None, 0)`;
for a nonempty input the visited window starts are exactly
`min + i * step` while they do not exceed the max, each position's count is
the inclusive count over `[start, start + window]`, and the returned window
is the first one attaining the maximum count (ties resolved to the earliest,
hence lowest, start). -/
theorem find_hot_zone_spec (rates : List ℚ) (window step : ℚ) (hstep : 0 < step) :
    (rates = [] → find_hot_zone rates window step = (none, none, 0)) ∧
    (∀ a rest, rates = a :: rest →
      (∀ i : ℕ,
        i < (hotStarts (hotLo a rest) (hotHi a rest) step).length ↔
          hotLo a rest + (i : ℚ) * step ≤ hotHi a rest) ∧
      (∀ i (hi : i < (hotStarts (hotLo a rest) (hotHi a rest) step).length),
        (hotStarts (hotLo a rest) (hotHi a rest) step).get ⟨i, hi⟩ =
          hotLo a rest + (i : ℚ) * step) ∧
      ∃ k, ∃ hk : k < (hotStarts (hotLo a rest) (hotHi a rest) step).length,
        find_hot_zone rates window step =
          (some ((hotStarts (hotLo a rest) (hotHi a rest) step).get ⟨k, hk⟩),
            some ((hotStarts (hotLo a rest) (hotHi a rest) step).get ⟨k, hk⟩ + window),
            (countInWindow rates
              ((hotStarts (hotLo a rest) (hotHi a rest) step).get ⟨k, hk⟩)
              ((hotStarts (hotLo a rest) (hotHi a rest) step).get ⟨k, hk⟩ + window) : ℤ)) ∧
        (∀ j (hj : j < (hotStarts (hotLo a rest) (hotHi a rest) step).length),
          countInWindow rates
              ((hotStarts (hotLo a rest) (hotHi a rest) step).get ⟨j, hj⟩)
              ((hotStarts (hotLo a rest) (hotHi a rest) step).get ⟨j, hj⟩ + window) ≤
            countInWindow rates
              ((hotStarts (hotLo a rest) (hotHi a rest) step).get ⟨k, hk⟩)
              ((hotStarts (hotLo a rest) (hotHi a rest) step).get ⟨k, hk⟩ + window)) ∧
        (∀ j (hj : j < (hotStarts (hotLo a rest) (hotHi a rest) step).length), j < k →
          countInWindow rates
              ((hotStarts (hotLo a rest) (hotHi a rest) step).get ⟨j, hj⟩)
              ((hotStarts (hotLo a rest) (hotHi a rest) step).get ⟨j, hj⟩ + window) <
            countInWindow rates
              ((hotStarts (hotLo a rest) (hotHi a rest) step).get ⟨k, hk⟩)
              ((hotStarts (hotLo a rest) (hotHi a rest) step).get ⟨k, hk⟩ + window))) := by
  constructor
  · intro h; subst h; rfl
  · intro a rest hr
    subst hr
    have hlh : hotLo a rest ≤ hotHi a rest :=
      (foldl_min_le_init rest a).trans (init_le_foldl_max rest a)
    refine ⟨fun i => hotStarts_lt_iff _ _ _ hstep hlh i, hotStarts_get _ _ _, ?_⟩
    have hpos : 0 < (hotStarts (hotLo a rest) (hotHi a rest) step).length := by
      rw [hotStarts_length _ _ _ hstep]; exact Nat.succ_pos _
    have hex : ∃ s ∈ hotStarts (hotLo a rest) (hotHi a rest) step,
        (-1 : ℤ) < (countInWindow (a :: rest) s (s + window) : ℤ) := by
      refine ⟨(hotStarts (hotLo a rest) (hotHi a rest) step).get ⟨0, hpos⟩,
        List.get_mem _ _ _, ?_⟩
      exact lt_of_lt_of_le (show (-1 : ℤ) < 0 by norm_num) (Int.ofNat_nonneg _)
    rcases hzLoop_argmax (a :: rest) window _ none none (-1) hex with
      ⟨k, hk, heq, _, hmax, hfirst⟩
    exact ⟨k, hk, heq, hmax, hfirst⟩

/-- Witness for C4: at the empty input the locator returns `(None, None, 0)`. -/
theorem find_hot_zone_spec_witness :
    find_hot_zone ([] : List ℚ) (3 / 10) (1 / 20) = (none, none, 0) :=
  (find_hot_zone_spec [] (3 / 10) (1 / 20) (by norm_num)).1 rfl

/-- Hot-zone bounds as computed by the batch run (src `app.py` lines 790-794):
`find_hot_zone` with the default `window=0.3, step=0.05`, falling back to
`(min(winner_rates), max(winner_rates))` when the locator returned `None`
bounds for a nonempty list. -/
def processHotBounds (wr : List ℚ) : Option ℚ × Option ℚ :=
  match wr with
  | [] => (none, none)
  | a :: rest =>
      match find_hot_zone (a :: rest) (3 / 10) (1 / 20) with
      | (some s, some e, _) => (some s, some e)
      | _ => (some (hotLo a rest), some (hotHi a rest))

/-- Claim C10: on every nonempty winner-rate list `find_hot_zone` (at the
default window `0.3` and step `0.05` used by the batch run) returns bounds
`some s` and `some (s + 0.3)` with a count of at least `1`, so the caller's
`(min, max)` fallback is never exercised: `processHotBounds` returns the
locator's own bounds. -/
theorem hot_zone_nonempty_total (wr : List ℚ) (h : wr ≠ []) :
    ∃ s c, find_hot_zone wr (3 / 10) (1 / 20) = (some s, some (s + 3 / 10), c) ∧
      1 ≤ c ∧ processHotBounds wr = (some s, some (s + 3 / 10)) := by
  match wr, h with
  | a :: rest, _ =>
    have hstep : (0 : ℚ) < 1 / 20 := by norm_num
    have hpos : 0 < (hotStarts (hotLo a rest) (hotHi a rest) (1 / 20)).length := by
      rw [hotStarts_length _ _ _ hstep]; exact Nat.succ_pos _
    have hex : ∃ s ∈ hotStarts (hotLo a rest) (hotHi a rest) (1 / 20),
        (-1 : ℤ) < (countInWindow (a :: rest) s (s + 3 / 10) : ℤ) := by
      refine ⟨(hotStarts (hotLo a rest) (hotHi a rest) (1 / 20)).get ⟨0, hpos⟩,
        List.get_mem _ _ _, ?_⟩
      exact lt_of_lt_of_le (show (-1 : ℤ) < 0 by norm_num) (Int.ofNat_nonneg _)
    rcases hzLoop_argmax (a :: rest) (3 / 10) _ none none (-1) hex with
      ⟨k, hk, heq, _, hmax, _⟩
    have hfz : find_hot_zone (a :: rest) (3 / 10) (1 / 20) =
        hzLoop (a :: rest) (3 / 10)
          (hotStarts (hotLo a rest) (hotHi a rest) (1 / 20)) (none, none, -1) := rfl
    rw [hfz, heq]
    refine ⟨_, _, rfl, ?_, ?_⟩
    · -- the best count is at least the count of the first window, which holds the minimum
      have hget0 : (hotStarts (hotLo a rest) (hotHi a rest) (1 / 20)).get ⟨0, hpos⟩ =
          hotLo a rest := by
        rw [hotStarts_get]; push_cast; ring
      have hlomem : hotLo a rest ∈ a :: rest := by
        rcases foldl_min_attained rest a with h2 | h2
        · rw [hotLo, h2]; exact List.mem_cons_self a rest
        · exact List.mem_cons_of_mem a h2
      have hcnt0 : 1 ≤ countInWindow (a :: rest) (hotLo a rest) (hotLo a rest + 3 / 10) :=
        countInWindow_pos _ _ _ (hotLo a rest) hlomem le_rfl (by linarith)
      have hle := hmax 0 hpos
      rw [hget0] at hle
      exact_mod_cast hcnt0.trans hle
    · rw [processHotBounds, hfz, heq]

/-- Witness for C10: the singleton winner list `[100]`. -/
theorem hot_zone_nonempty_total_witness :
    ∃ s c, find_hot_zone [(100 : ℚ)] (3 / 10) (1 / 20) = (some s, some (s + 3 / 10), c) ∧
      1 ≤ c ∧ processHotBounds [(100 : ℚ)] = (some s, some (s + 3 / 10)) :=
  hot_zone_nonempty_total [(100 : ℚ)] (by simp)

/-- Restriction of a rate list to the closed hot-zone interval (src `app.py`
lines 297-298: `[r for r in ... if hot_start <= r <= hot_end]`). -/
def boFilter (hs he : ℚ) (rates : List ℚ) : List ℚ :=
  rates.filter fun r => decide (hs ≤ r ∧ r ≤ he)

/-- Rational model of `np.arange(a, b, s)`: the values `a + i * s` for
`i = 0, …, ⌈(b - a) / s⌉ - 1` when the step is positive. -/
def arangeQ (a b s : ℚ) : List ℚ :=
  (List.range (if 0 < s then Nat.ceil ((b - a) / s) else 0)).map
    fun i : ℕ => a + (i : ℚ) * s

/-- Bin edges of the blue-ocean histogram (src `app.py` lines 303-305:
`bins = np.arange(hot_start, hot_end + bin_width, bin_width)`, replaced by
`[hot_start, hot_end]` when fewer than 2 edges came out). -/
def boBins (hs he bw : ℚ) : List ℚ :=
  if (arangeQ hs (he + bw) bw).length < 2 then [hs, he] else arangeQ hs (he + bw) bw

/-- Histogram counts over consecutive bin edges, mirroring `np.histogram`:
every bin is half-open `[e_i, e_{i+1})` except the last, which is closed. -/
def histCounts (points : List ℚ) : List ℚ → List ℕ
  | s :: e :: rest =>
      (if rest = [] then (points.filter fun x => decide (s ≤ x ∧ x ≤ e)).length
       else (points.filter fun x => decide (s ≤ x ∧ x < e)).length) ::
        histCounts points (e :: rest)
  | _ => []

/-- Blue-ocean score of one bin (src `app.py` lines 334-336):
`demand * (1.0 / (bid_count + 1.0))`. -/
def blueScore (demand : ℚ) (bidC : ℕ) : ℚ := demand * (1 / ((bidC : ℚ) + 1))

/-- Maximum normalized theoretical density (src `app.py` lines 313-314:
`theo_norm = theo_counts / theo_counts.sum(); max_theo = theo_norm.max()`).
The counts are nonnegative, so folding with initial value `0` agrees with the
numpy maximum of the nonempty density array. -/
def boMaxTheo (tcs : List ℕ) : ℚ :=
  (tcs.map fun c : ℕ => (c : ℚ) / (tcs.sum : ℚ)).foldl max 0

/-- Scoring loop over the bins (src `app.py` lines 323-350): bins with zero
theoretical count are skipped; every other bin is appended to the row list and
the first bin whose score strictly exceeds the best so far becomes the best
range/center.  The accumulator is `(rows, best_score, best_range,
best_center)` with `best_score` initialised to `-1`. -/
def boLoop (total maxTheo : ℚ) :
    List ℚ → List ℕ → List ℕ →
      List (ℚ × ℚ × ℕ × ℕ) × ℚ × Option (ℚ × ℚ) × Option ℚ →
      List (ℚ × ℚ × ℕ × ℕ) × ℚ × Option (ℚ × ℚ) × Option ℚ
  | s :: e :: es, tc :: tcs, bc :: bcs, acc =>
      if tc = 0 then boLoop total maxTheo (e :: es) tcs bcs acc
      else
        if acc.2.1 < blueScore ((tc : ℚ) / total / maxTheo) bc then
          boLoop total maxTheo (e :: es) tcs bcs
            (acc.1 ++ [((s + e) / 2, blueScore ((tc : ℚ) / total / maxTheo) bc, tc, bc)],
              blueScore ((tc : ℚ) / total / maxTheo) bc, some (s, e), some ((s + e) / 2))
        else
          boLoop total maxTheo (e :: es) tcs bcs
            (acc.1 ++ [((s + e) / 2, blueScore ((tc : ℚ) / total / maxTheo) bc, tc, bc)],
              acc.2)
  | _, _, _, acc => acc

/-- Final packaging of the scorer result (src `app.py` lines 352-356): three
`None`s when no row was produced, otherwise the rows sorted by bin center
together with the best range and best center. -/
def boFinish (res : List (ℚ × ℚ × ℕ × ℕ) × ℚ × Option (ℚ × ℚ) × Option ℚ) :
    Option (List (ℚ × ℚ × ℕ × ℕ)) × Option (ℚ × ℚ) × Option ℚ :=
  if res.1 = [] then (none, none, none)
  else (some (res.1.insertionSort fun x y => x.1 ≤ y.1), res.2.2.1, res.2.2.2)

/-- Blue Ocean scorer (src `app.py` `find_blue_ocean_v3`): filter both pools
to the hot zone, histogram them over shared edges, normalize the theoretical
counts, score each bin and return the rows plus the best range and center;
`(None, None, None)` at every insufficient-data guard. -/
def find_blue_ocean_v3 (theoretical_rates bidder_rates : List ℚ)
    (hot_start hot_end : Option ℚ) (bin_width : ℚ) :
    Option (List (ℚ × ℚ × ℕ × ℕ)) × Option (ℚ × ℚ) × Option ℚ :=
  match hot_start, hot_end with
  | some hs, some he =>
      if boFilter hs he theoretical_rates = [] ∨ boFilter hs he bidder_rates = [] then
        (none, none, none)
      else if (histCounts (boFilter hs he theoretical_rates)
          (boBins hs he bin_width)).sum = 0 then
        (none, none, none)
      else if boMaxTheo (histCounts (boFilter hs he theoretical_rates)
          (boBins hs he bin_width)) ≤ 0 then
        (none, none, none)
      else
        boFinish (boLoop
          ((histCounts (boFilter hs he theoretical_rates) (boBins hs he bin_width)).sum : ℚ)
          (boMaxTheo (histCounts (boFilter hs he theoretical_rates) (boBins hs he bin_width)))
          (boBins hs he bin_width)
          (histCounts (boFilter hs he theoretical_rates) (boBins hs he bin_width))
          (histCounts (boFilter hs he bidder_rates) (boBins hs he bin_width))
          ([], -1, none, none))
  | _, _ => (none, none, none)

lemma le_foldl_max (l : List ℚ) : ∀ (a x : ℚ), x ∈ l → x ≤ l.foldl max a := by
  induction l with
  | nil => intro a x hx; exact absurd hx (List.not_mem_nil x)
  | cons y ys ih =>
      intro a x hx
      rcases List.mem_cons.mp hx with h | h
      · subst h
        calc x ≤ max a x := le_max_right a x
          _ ≤ ys.foldl max (max a x) := init_le_foldl_max ys (max a x)
      · exact ih (max a y) x h

lemma histCounts_length (points : List ℚ) :
    ∀ edges : List ℚ, (histCounts points edges).length = edges.length - 1
  | [] => rfl
  | [_] => rfl
  | s :: e :: rest => by
      rw [histCounts, List.length_cons, histCounts_length points (e :: rest)]
      simp only [List.length_cons]
      omega

lemma boBins_two_le (hs he bw : ℚ) : 2 ≤ (boBins hs he bw).length := by
  rw [boBins]
  split_ifs with h
  · simp
  · omega

lemma boLoop_rows_nil (total maxTheo : ℚ) :
    ∀ (edges : List ℚ) (tcs bcs : List ℕ)
      (acc : List (ℚ × ℚ × ℕ × ℕ) × ℚ × Option (ℚ × ℚ) × Option ℚ),
      edges.length = tcs.length + 1 → tcs.length = bcs.length →
      (boLoop total maxTheo edges tcs bcs acc).1 = [] →
      acc.1 = [] ∧ ∀ tc ∈ tcs, tc = 0
  | [], tcs, bcs, acc => by
      intro h1 _ _
      simp only [List.length_nil] at h1
      omega
  | [e], tcs, bcs, acc => by
      intro h1 _ h3
      simp only [List.length_cons, List.length_nil] at h1
      have htcs : tcs = [] := List.length_eq_zero.mp (by omega)
      subst htcs
      exact ⟨h3, by simp⟩
  | s :: e :: es, tcs, bcs, acc => by
      intro h1 h2 h3
      match tcs, bcs, h1, h2 with
      | [], _, h1, _ => simp at h1
      | tc :: tcs0, [], _, h2 => simp at h2
      | tc :: tcs0, bc :: bcs0, h1, h2 =>
        simp only [List.length_cons] at h1 h2
        by_cases htc : tc = 0
        · rw [boLoop, if_pos htc] at h3
          have ih := boLoop_rows_nil total maxTheo (e :: es) tcs0 bcs0 acc
            (by simp only [List.length_cons]; omega) (by omega) h3
          exact ⟨ih.1, fun x hx => by
            rcases List.mem_cons.mp hx with h | h
            · rw [h, htc]
            · exact ih.2 x h⟩
        · exfalso
          rw [boLoop, if_neg htc] at h3
          by_cases hsc : acc.2.1 < blueScore ((tc : ℚ) / total / maxTheo) bc
          · rw [if_pos hsc] at h3
            have ih := boLoop_rows_nil total maxTheo (e :: es) tcs0 bcs0 _
              (by simp only [List.length_cons]; omega) (by omega) h3
            have := ih.1
            rcases List.append_eq_nil.mp this with ⟨_, hrow⟩
            cases hrow
          · rw [if_neg hsc] at h3
            have ih := boLoop_rows_nil total maxTheo (e :: es) tcs0 bcs0 _
              (by simp only [List.length_cons]; omega) (by omega) h3
            have := ih.1
            rcases List.append_eq_nil.mp this with ⟨_, hrow⟩
            cases hrow

lemma sum_zero_all_zero (l : List ℕ) (h : l.sum = 0) : ∀ c ∈ l, c = 0 := by
  intro c hc
  have hle := List.single_le_sum (fun x _ => Nat.zero_le x) c hc
  omega

lemma boMaxTheo_nonpos (tcs : List ℕ) (hsum : tcs.sum ≠ 0) (h : boMaxTheo tcs ≤ 0) :
    ∀ c ∈ tcs, c = 0 := by
  intro c hc
  have htotal : (0 : ℚ) < (tcs.sum : ℚ) := by
    exact_mod_cast Nat.pos_of_ne_zero hsum
  have hmem : ((c : ℚ) / (tcs.sum : ℚ)) ∈ tcs.map fun c : ℕ => (c : ℚ) / (tcs.sum : ℚ) :=
    List.mem_map.mpr ⟨c, hc, rfl⟩
  have hle : (c : ℚ) / (tcs.sum : ℚ) ≤ boMaxTheo tcs := le_foldl_max _ 0 _ hmem
  have hnonneg : (0 : ℚ) ≤ (c : ℚ) / (tcs.sum : ℚ) :=
    div_nonneg (Nat.cast_nonneg c) htotal.le
  have hzero : (c : ℚ) / (tcs.sum : ℚ) = 0 := le_antisymm (hle.trans h) hnonneg
  rcases div_eq_zero_iff.mp hzero with h2 | h2
  · exact_mod_cast h2
  · exact absurd h2 htotal.ne'

/-- Claim C5: the scorer returns the "no result" triple `(None, None, None)`
exactly when a hot-zone bound is unset, or the theoretical rates restricted to
the hot zone are empty, or the actual rates restricted to the hot zone are
empty, or every bin's theoretical count is zero; all these cases are ordinary
return values of the (total) function, not errors. -/
theorem blue_ocean_none_iff (t b : List ℚ) (hso heo : Option ℚ) (bw : ℚ) :
    find_blue_ocean_v3 t b hso heo bw = (none, none, none) ↔
      hso = none ∨ heo = none ∨
        ∃ hs he, hso = some hs ∧ heo = some he ∧
          (boFilter hs he t = [] ∨ boFilter hs he b = [] ∨
            ∀ c ∈ histCounts (boFilter hs he t) (boBins hs he bw), c = 0) := by
  match hso, heo with
  | none, none => exact ⟨fun _ => Or.inl rfl, fun _ => rfl⟩
  | none, some he => exact ⟨fun _ => Or.inl rfl, fun _ => rfl⟩
  | some hs, none => exact ⟨fun _ => Or.inr (Or.inl rfl), fun _ => rfl⟩
  | some hs, some he =>
    have hlen1 : (boBins hs he bw).length =
        (histCounts (boFilter hs he t) (boBins hs he bw)).length + 1 := by
      rw [histCounts_length]
      have := boBins_two_le hs he bw
      omega
    have hlen2 : (histCounts (boFilter hs he t) (boBins hs he bw)).length =
        (histCounts (boFilter hs he b) (boBins hs he bw)).length := by
      rw [histCounts_length, histCounts_length]
    simp only [find_blue_ocean_v3]
    by_cases h1 : boFilter hs he t = [] ∨ boFilter hs he b = []
    · rw [if_pos h1]
      refine ⟨fun _ => Or.inr (Or.inr ⟨hs, he, rfl, rfl, ?_⟩), fun _ => rfl⟩
      rcases h1 with h | h
      · exact Or.inl h
      · exact Or.inr (Or.inl h)
    · rw [if_neg h1]
      by_cases h2 : (histCounts (boFilter hs he t) (boBins hs he bw)).sum = 0
      · rw [if_pos h2]
        refine ⟨fun _ => Or.inr (Or.inr ⟨hs, he, rfl, rfl, Or.inr (Or.inr ?_)⟩),
          fun _ => rfl⟩
        exact sum_zero_all_zero _ h2
      · rw [if_neg h2]
        by_cases h3 : boMaxTheo (histCounts (boFilter hs he t) (boBins hs he bw)) ≤ 0
        · rw [if_pos h3]
          exact ⟨fun _ => Or.inr (Or.inr ⟨hs, he, rfl, rfl,
            Or.inr (Or.inr (boMaxTheo_nonpos _ h2 h3))⟩), fun _ => rfl⟩
        · rw [if_neg h3]
          constructor
          · intro hres
            by_cases h4 : (boLoop
                ((histCounts (boFilter hs he t) (boBins hs he bw)).sum : ℚ)
                (boMaxTheo (histCounts (boFilter hs he t) (boBins hs he bw)))
                (boBins hs he bw)
                (histCounts (boFilter hs he t) (boBins hs he bw))
                (histCounts (boFilter hs he b) (boBins hs he bw))
                ([], -1, none, none)).1 = []
            · have hall := boLoop_rows_nil _ _ (boBins hs he bw)
                (histCounts (boFilter hs he t) (boBins hs he bw))
                (histCounts (boFilter hs he b) (boBins hs he bw))
                ([], -1, none, none) hlen1 hlen2 h4
              exact Or.inr (Or.inr ⟨hs, he, rfl, rfl, Or.inr (Or.inr hall.2)⟩)
            · exfalso
              rw [boFinish, if_neg h4] at hres
              exact Option.some_ne_none _ (congrArg Prod.fst hres)
          · intro hdisj
            rcases hdisj with h | h | ⟨hs2, he2, hhs, hhe, hcase⟩
            · exact absurd h (Option.some_ne_none hs)
            · exact absurd h (Option.some_ne_none he)
            · have hhs2 : hs2 = hs := by injection hhs.symm
              have hhe2 : he2 = he := by injection hhe.symm
              subst hhs2; subst hhe2
              rcases hcase with h | h | h
              · exact absurd (Or.inl h) h1
              · exact absurd (Or.inr h) h1
              · exact absurd (List.sum_eq_zero h) h2

/-- Claim C6: the blue-ocean score `demand * (1 / (bid_count + 1))` is, for a
fixed positive demand, monotonically non-increasing in the actual bidder
count, and a bin with zero actual bidders scores strictly higher than one
with at least one bidder. -/
theorem blue_score_monotone (d : ℚ) (hd : 0 < d) :
    (∀ m n : ℕ, m ≤ n → blueScore d n ≤ blueScore d m) ∧
    (∀ n : ℕ, 1 ≤ n → blueScore d n < blueScore d 0) := by
  have key : ∀ m n : ℕ, m ≤ n → (1 : ℚ) / ((n : ℚ) + 1) ≤ 1 / ((m : ℚ) + 1) := by
    intro m n h
    have hmn : (m : ℚ) ≤ (n : ℚ) := Nat.cast_le.mpr h
    apply one_div_le_one_div_of_le
    · positivity
    · linarith
  constructor
  · intro m n h
    exact mul_le_mul_of_nonneg_left (key m n h) hd.le
  · intro n h
    have hn1 : (1 : ℚ) ≤ (n : ℚ) := by exact_mod_cast h
    have hlt : (1 : ℚ) / ((n : ℚ) + 1) < 1 / ((0 : ℚ) + 1) := by
      rw [zero_add, div_one, div_lt_one (by positivity)]
      linarith
    have h0 : blueScore d 0 = d * (1 / ((0 : ℚ) + 1)) := by
      rw [blueScore, Nat.cast_zero]
    rw [blueScore, h0]
    exact mul_lt_mul_of_pos_left hlt hd

/-- Witness for C6: with demand `1`, one bidder scores at most — in fact
strictly less than — zero bidders. -/
theorem blue_score_monotone_witness :
    blueScore 1 1 ≤ blueScore 1 0 ∧ blueScore 1 1 < blueScore 1 0 :=
  ⟨(blue_score_monotone 1 one_pos).1 0 1 (Nat.zero_le 1),
    (blue_score_monotone 1 one_pos).2 1 le_rfl⟩

/-- Round-half-to-even to the nearest integer, the rounding mode of Python's
built-in `round`. -/
def roundHalfEven (x : ℚ) : ℤ :=
  if x - Int.floor x < 1 / 2 then Int.floor x
  else if 1 / 2 < x - Int.floor x then Int.floor x + 1
  else if Int.floor x % 2 = 0 then Int.floor x else Int.floor x + 1

/-- Python's `round(x, 4)` over the rational model. -/
def pyRound4 (x : ℚ) : ℚ := (roundHalfEven (x * 10000) : ℚ) / 10000

/-- Blue-ocean invocation of the batch run at bin width `bw` (src `app.py`
lines 838-851): the scorer runs only when both hot-zone bounds are set and
both pooled rate lists are nonempty; otherwise the result stays the `None`
triple. -/
def batchBlueW (bw : ℚ) (wr theo bids : List ℚ) :
    Option (List (ℚ × ℚ × ℕ × ℕ)) × Option (ℚ × ℚ) × Option ℚ :=
  match processHotBounds wr with
  | (some hs, some he) =>
      if theo = [] ∨ bids = [] then (none, none, none)
      else find_blue_ocean_v3 theo bids (some hs) (some he) bw
  | _ => (none, none, none)

/-- The deployed batch run (src `app.py` line 850) passes
`bin_width=0.0005 = 1/2000`. -/
def batchBlue (wr theo bids : List ℚ) :
    Option (List (ℚ × ℚ × ℕ × ℕ)) × Option (ℚ × ℚ) × Option ℚ :=
  batchBlueW (1 / 2000) wr theo bids

/-- Recommended rate of the batch run at bin width `bw` (src `app.py` lines
856-861): `rec_rate = round(best_range[1], 4)` when `blue_df` and
`best_range` are both set, else `None`. -/
def batchRecRateW (bw : ℚ) (wr theo bids : List ℚ) : Option ℚ :=
  match batchBlueW bw wr theo bids with
  | (some _, some rng, _) => some (pyRound4 rng.2)
  | _ => none

/-- Recommended rate of the deployed batch run (`bin_width=0.0005`). -/
def batchRecRate (wr theo bids : List ℚ) : Option ℚ :=
  batchRecRateW (1 / 2000) wr theo bids

/-- Claim C7: whenever the Blue Ocean scorer of the batch run produces a best
range, the recommended rate is exactly the upper bound of that range rounded
to 4 decimal places — at every bin width, in particular at the deployed
`0.0005`, as the second conjunct records. -/
theorem batch_rec_rate_upper_bound (bw : ℚ) (wr theo bids : List ℚ)
    (df : List (ℚ × ℚ × ℕ × ℕ)) (rng : ℚ × ℚ) (c : Option ℚ)
    (h : batchBlueW bw wr theo bids = (some df, some rng, c)) :
    batchRecRateW bw wr theo bids = some (pyRound4 rng.2) ∧
    batchRecRate wr theo bids = batchRecRateW (1 / 2000) wr theo bids := by
  constructor
  · rw [batchRecRateW, h]
  · rfl

lemma processHotBounds_single :
    processHotBounds [100] = (some 100, some (100 + 3 / 10)) := by
  have hst : hotStarts (hotLo 100 []) (hotHi 100 []) (1 / 20) = [100] := by
    have h : ((100 : ℚ) - 100) / (1 / 20) = 0 := by norm_num
    rw [hotLo, hotHi]
    rw [show ([] : List ℚ).foldl min 100 = 100 from rfl,
      show ([] : List ℚ).foldl max 100 = 100 from rfl]
    rw [hotStarts, h]
    norm_num [show List.range 1 = [0] from rfl]
  have hcnt : countInWindow [100] 100 (100 + 3 / 10) = 1 := by
    rw [countInWindow]
    norm_num [List.filter]
  have hfz : find_hot_zone [(100 : ℚ)] (3 / 10) (1 / 20) =
      (some 100, some (100 + 3 / 10), 1) := by
    show hzLoop [(100 : ℚ)] (3 / 10)
      (hotStarts (hotLo 100 []) (hotHi 100 []) (1 / 20)) (none, none, -1) = _
    rw [hst, hzLoop, hcnt]
    norm_num [hzLoop]
  rw [processHotBounds, hfz]

lemma batchBlueW_eval :
    batchBlueW (1 / 10) [100] [2003 / 20] [5001 / 50] =
      (some [(2003 / 20, 1, 1, 0)], some (1001 / 10, 501 / 5), some (2003 / 20)) := by
  have hbins : boBins 100 (1003 / 10) (1 / 10) = [100, 1001 / 10, 501 / 5, 1003 / 10] := by
    have h : ((1003 : ℚ) / 10 + 1 / 10 - 100) / (1 / 10) = 4 := by norm_num
    rw [boBins, arangeQ, h]
    norm_num [show List.range 4 = [0, 1, 2, 3] from rfl]
  have hfilT : boFilter 100 (1003 / 10) [2003 / 20] = [(2003 / 20 : ℚ)] := by
    norm_num [boFilter, List.filter]
  have hfilB : boFilter 100 (1003 / 10) [5001 / 50] = [(5001 / 50 : ℚ)] := by
    norm_num [boFilter, List.filter]
  have hhT : histCounts [(2003 / 20 : ℚ)] [100, 1001 / 10, 501 / 5, 1003 / 10] = [0, 1, 0] := by
    norm_num [histCounts, List.filter]
  have hhB : histCounts [(5001 / 50 : ℚ)] [100, 1001 / 10, 501 / 5, 1003 / 10] = [1, 0, 0] := by
    norm_num [histCounts, List.filter]
  have hmax : boMaxTheo [0, 1, 0] = 1 := by norm_num [boMaxTheo]
  have hloop : boLoop 1 1 [100, 1001 / 10, 501 / 5, 1003 / 10] [0, 1, 0] [1, 0, 0]
      ([], -1, none, none) =
      ([(2003 / 20, 1, 1, 0)], 1, some (1001 / 10, 501 / 5), some (2003 / 20)) := by
    norm_num [boLoop, blueScore]
  have hfb : find_blue_ocean_v3 [2003 / 20] [5001 / 50] (some 100) (some (1003 / 10))
      (1 / 10) =
      (some [(2003 / 20, 1, 1, 0)], some (1001 / 10, 501 / 5), some (2003 / 20)) := by
    simp only [find_blue_ocean_v3, hbins, hfilT, hfilB, hhT, hhB, hmax]
    norm_num [boFinish, hloop, List.insertionSort, List.orderedInsert]
  simp only [batchBlueW, processHotBounds_single]
  norm_num [hfb]

/-- Witness for C7: a batch with one winner rate `100`, one theoretical rate
`100.15` and one bidder rate `100.02` at bin width `0.1`; the recommended rate
is the rounded upper bound `100.2` of the best range. -/
theorem batch_rec_rate_upper_bound_witness :
    batchRecRateW (1 / 10) [100] [2003 / 20] [5001 / 50] = some (pyRound4 (501 / 5)) ∧
    batchRecRate [100] [2003 / 20] [5001 / 50] =
      batchRecRateW (1 / 2000) [100] [2003 / 20] [5001 / 50] :=
  batch_rec_rate_upper_bound (1 / 10) [100] [2003 / 20] [5001 / 50]
    [(2003 / 20, 1, 1, 0)] (1001 / 10, 501 / 5) (some (2003 / 20)) batchBlueW_eval

/-- Per-announcement analysis outcome as consumed by the batch loop (src
`app.py` lines 686-724): either an error, or officer name, winner name,
winning rate, combined table (rate with label rows), theoretical rates and
bidder rates.  Strings are taken already stripped, as the loop compares
`officer != target_clean` on stripped values. -/
structure GongoResult where
  err : Bool
  officer : String
  winner : String
  wRate : ℚ
  combined : List (ℚ × String)
  theoRates : List ℚ
  bidderRates : List ℚ
deriving DecidableEq

/-- One iteration of the batch accumulation loop (src `app.py` lines 686-724):
errors are skipped; with a nonempty target filter, announcements whose officer
differs are excluded; otherwise the winning rate is pooled only when nonzero
(`if w_rate != 0`), the theoretical rates when the theoretical table is
nonempty, the bidder rates when nonempty, and a nonempty combined table joins
the merge list.  The accumulator is `(winner_rates, theoretical_rates_all,
bidder_rates_all, results_for_merge)`. -/
def poolStep (target : String)
    (acc : List ℚ × List ℚ × List ℚ × List (List (ℚ × String)))
    (g : GongoResult) : List ℚ × List ℚ × List ℚ × List (List (ℚ × String)) :=
  if g.err then acc
  else if target ≠ "" ∧ g.officer ≠ target then acc
  else
    (if g.wRate ≠ 0 then acc.1 ++ [g.wRate] else acc.1,
      if g.theoRates ≠ [] then acc.2.1 ++ g.theoRates else acc.2.1,
      if g.bidderRates ≠ [] then acc.2.2.1 ++ g.bidderRates else acc.2.2.1,
      if g.combined ≠ [] then acc.2.2.2 ++ [g.combined] else acc.2.2.2)

/-- Pooled accumulators after the whole batch loop (src `app.py` lines
674-724), starting from empty lists. -/
def processPools (target : String) (gs : List GongoResult) :
    List ℚ × List ℚ × List ℚ × List (List (ℚ × String)) :=
  gs.foldl (poolStep target) ([], [], [], [])

lemma poolStep_mono (target : String)
    (acc : List ℚ × List ℚ × List ℚ × List (List (ℚ × String))) (g : GongoResult) :
    (∀ x ∈ acc.1, x ∈ (poolStep target acc g).1) ∧
    (∀ x ∈ acc.2.1, x ∈ (poolStep target acc g).2.1) ∧
    (∀ x ∈ acc.2.2.1, x ∈ (poolStep target acc g).2.2.1) := by
  rw [poolStep]
  split_ifs <;>
    exact ⟨fun x hx => by first | exact hx | exact List.mem_append_left _ hx,
      fun x hx => by first | exact hx | exact List.mem_append_left _ hx,
      fun x hx => by first | exact hx | exact List.mem_append_left _ hx⟩

lemma pools_mono (target : String) :
    ∀ (gs : List GongoResult) (acc : List ℚ × List ℚ × List ℚ × List (List (ℚ × String))),
      (∀ x ∈ acc.1, x ∈ (gs.foldl (poolStep target) acc).1) ∧
      (∀ x ∈ acc.2.1, x ∈ (gs.foldl (poolStep target) acc).2.1) ∧
      (∀ x ∈ acc.2.2.1, x ∈ (gs.foldl (poolStep target) acc).2.2.1) := by
  intro gs
  induction gs with
  | nil => exact fun acc => ⟨fun x hx => hx, fun x hx => hx, fun x hx => hx⟩
  | cons g rest ih =>
      intro acc
      have hstep := poolStep_mono target acc g
      have hrest := ih (poolStep target acc g)
      exact ⟨fun x hx => hrest.1 x (hstep.1 x hx),
        fun x hx => hrest.2.1 x (hstep.2.1 x hx),
        fun x hx => hrest.2.2 x (hstep.2.2 x hx)⟩

/-- Claim C8, corrected: an announcement that analyzed successfully and passes
the officer filter contributes its winning rate to the pooled winner list
**when that rate is nonzero**, and every theoretical and bidder rate to the
respective pools. -/
theorem batch_pools_amended (target : String) (gs : List GongoResult)
    (g : GongoResult) (hg : g ∈ gs) (herr : g.err = false)
    (hfil : target = "" ∨ g.officer = target) :
    (g.wRate ≠ 0 → g.wRate ∈ (processPools target gs).1) ∧
    (∀ t ∈ g.theoRates, t ∈ (processPools target gs).2.1) ∧
    (∀ b ∈ g.bidderRates, b ∈ (processPools target gs).2.2.1) := by
  rw [processPools]
  generalize hacc : (([], [], [], []) :
    List ℚ × List ℚ × List ℚ × List (List (ℚ × String))) = acc
  clear hacc
  induction gs generalizing acc with
  | nil => exact absurd hg (List.not_mem_nil g)
  | cons g0 rest ih =>
      rcases List.mem_cons.mp hg with hEq | hmem
      · subst hEq
        have hkeep : poolStep target acc g =
            (if g.wRate ≠ 0 then acc.1 ++ [g.wRate] else acc.1,
              if g.theoRates ≠ [] then acc.2.1 ++ g.theoRates else acc.2.1,
              if g.bidderRates ≠ [] then acc.2.2.1 ++ g.bidderRates else acc.2.2.1,
              if g.combined ≠ [] then acc.2.2.2 ++ [g.combined] else acc.2.2.2) := by
          rw [poolStep, if_neg (by simp [herr])]
          rw [if_neg (by rcases hfil with h | h <;> simp [h])]
        have hmono := pools_mono target rest (poolStep target acc g)
        refine ⟨fun hw => ?_, fun t ht => ?_, fun b hb => ?_⟩
        · refine hmono.1 _ ?_
          rw [hkeep]
          simp only [if_pos hw]
          exact List.mem_append_right _ (List.mem_singleton.mpr rfl)
        · refine hmono.2.1 _ ?_
          rw [hkeep]
          simp only
          rw [if_pos (List.ne_nil_of_mem ht)]
          exact List.mem_append_right _ ht
        · refine hmono.2.2 _ ?_
          rw [hkeep]
          simp only
          rw [if_pos (List.ne_nil_of_mem hb)]
          exact List.mem_append_right _ hb
      · exact ih hmem (poolStep target acc g0)

/-- Counterexample to C8 as stated: a successful, filter-passing announcement
whose winning rate is `0` (the sentinel of an unknown rate) is **not** added
to the pooled winner-rate list, which stays empty. -/
theorem batch_pools_counterexample :
    (0 : ℚ) ∉ (processPools ""
      [{ err := false, officer := "officer-a", winner := "bidder-a", wRate := 0,
          combined := [], theoRates := [100], bidderRates := [0, 0] }]).1 := by
  decide

/-- Witness for the amended C8: a nonzero winning rate `100`, a theoretical
rate `99` and a bidder rate `98` all land in their pools. -/
theorem batch_pools_amended_witness :
    ((100 : ℚ) ∈ (processPools ""
      [{ err := false, officer := "officer-a", winner := "bidder-a", wRate := 100,
          combined := [], theoRates := [99], bidderRates := [98] }]).1) ∧
    ((99 : ℚ) ∈ (processPools ""
      [{ err := false, officer := "officer-a", winner := "bidder-a", wRate := 100,
          combined := [], theoRates := [99], bidderRates := [98] }]).2.1) ∧
    ((98 : ℚ) ∈ (processPools ""
      [{ err := false, officer := "officer-a", winner := "bidder-a", wRate := 100,
          combined := [], theoRates := [99], bidderRates := [98] }]).2.2.1) :=
  have h := batch_pools_amended ""
    [{ err := false, officer := "officer-a", winner := "bidder-a", wRate := 100,
        combined := [], theoRates := [99], bidderRates := [98] }]
    { err := false, officer := "officer-a", winner := "bidder-a", wRate := 100,
        combined := [], theoRates := [99], bidderRates := [98] }
    (List.mem_singleton.mpr rfl) rfl (Or.inl rfl)
  ⟨h.1 (by norm_num), h.2.1 99 (List.mem_singleton.mpr rfl),
    h.2.2 98 (List.mem_singleton.mpr rfl)⟩

/-- Rate column of a pandas outer merge on `rate` (src `app.py` line 772:
`pd.merge(merged_df, sub_df, on="rate", how="outer")`): every left row is
emitted once per matching right row (or once, unmatched, keeping a blank
cell), and unmatched right rows are appended. -/
def mergeOuterRates (left right : List ℚ) : List ℚ :=
  (left.flatMap fun r =>
    if right.filter (fun x => decide (x = r)) = [] then [r]
    else (right.filter fun x => decide (x = r)).map fun _ => r) ++
    right.filter fun x => decide (x ∉ left)

/-- Rate column of the merged comparison table (src `app.py` lines 753-776):
start from the de-duplicated union of all tables’ rates
(`pd.concat(...).unique()`), outer-merge every table in, and sort by rate. -/
def mergedRates (tables : List (List ℚ)) : List ℚ :=
  (tables.foldl mergeOuterRates ((tables.flatMap id).dedup)).insertionSort (· ≤ ·)

lemma mergeOuter_left_mem (left right : List ℚ) (r : ℚ) (hr : r ∈ left) :
    r ∈ mergeOuterRates left right := by
  rw [mergeOuterRates]
  refine List.mem_append_left _ (List.mem_flatMap.mpr ⟨r, hr, ?_⟩)
  by_cases h : right.filter (fun x => decide (x = r)) = []
  · rw [if_pos h]; exact List.mem_singleton.mpr rfl
  · rw [if_neg h]
    rcases List.exists_mem_of_ne_nil _ h with ⟨y, hy⟩
    exact List.mem_map.mpr ⟨y, hy, rfl⟩

lemma foldl_mergeOuter_mem (r : ℚ) :
    ∀ (ts : List (List ℚ)) (acc : List ℚ), r ∈ acc → r ∈ ts.foldl mergeOuterRates acc := by
  intro ts
  induction ts with
  | nil => exact fun acc h => h
  | cons t rest ih =>
      intro acc h
      exact ih (mergeOuterRates acc t) (mergeOuter_left_mem acc t r h)

lemma filter_eq_singleton_of_nodup (t : List ℚ) (ht : t.Nodup) (r : ℚ) :
    t.filter (fun x => decide (x = r)) = [] ∨
      t.filter (fun x => decide (x = r)) = [r] := by
  rcases h : t.filter (fun x => decide (x = r)) with _ | ⟨x, xs⟩
  · exact Or.inl rfl
  · right
    have hfil : (x :: xs).Nodup := h ▸ List.Nodup.filter (fun x => decide (x = r)) ht
    have hx : x = r := by
      have hm : x ∈ t.filter (fun x => decide (x = r)) := h ▸ List.mem_cons_self x xs
      simpa using List.of_mem_filter hm
    have hxs : xs = [] := by
      by_contra hne
      rcases List.exists_mem_of_ne_nil xs hne with ⟨y, hy⟩
      have hym : y ∈ t.filter (fun x => decide (x = r)) := h ▸ List.mem_cons_of_mem x hy
      have hyr : y = r := by simpa using List.of_mem_filter hym
      have hnd : x ∉ xs := (List.nodup_cons.mp hfil).1
      rw [hx] at hnd
      rw [hyr] at hy
      exact hnd hy
    rw [hx, hxs]

lemma flatMap_match_id (t : List ℚ) (ht : t.Nodup) :
    ∀ left : List ℚ,
      (left.flatMap fun r =>
        if t.filter (fun x => decide (x = r)) = [] then [r]
        else (t.filter fun x => decide (x = r)).map fun _ => r) = left := by
  intro left
  induction left with
  | nil => rfl
  | cons a as ih =>
      rw [List.flatMap_cons, ih]
      rcases filter_eq_singleton_of_nodup t ht a with h | h
      · rw [if_pos h]; rfl
      · rw [h, if_neg (by simp)]
        rfl

lemma mergeOuter_eq_of_nodup (left t : List ℚ) (ht : t.Nodup)
    (hsub : ∀ x ∈ t, x ∈ left) : mergeOuterRates left t = left := by
  rw [mergeOuterRates]
  have h2 : t.filter (fun x => decide (x ∉ left)) = [] := by
    rw [List.filter_eq_nil_iff]
    intro a ha
    simp [hsub a ha]
  rw [h2, List.append_nil, flatMap_match_id t ht left]

lemma foldl_mergeOuter_eq (all : List ℚ) :
    ∀ ts : List (List ℚ), (∀ t ∈ ts, t.Nodup ∧ ∀ x ∈ t, x ∈ all) →
      ts.foldl mergeOuterRates all = all := by
  intro ts
  induction ts with
  | nil => intro _; rfl
  | cons t rest ih =>
      intro h
      have h1 := h t (List.mem_cons_self t rest)
      rw [List.foldl_cons, mergeOuter_eq_of_nodup all t h1.1 h1.2]
      exact ih fun u hu => h u (List.mem_cons_of_mem t hu)

/-- Claim C9, corrected: the merged comparison table contains every rate value
present in any input table; it is free of duplicate rate rows **provided each
input table’s rate column is itself duplicate-free** (a table with a repeated
rate makes the outer join emit the row once per match). -/
theorem merged_table_outer_join_amended (tables : List (List ℚ)) :
    (∀ t ∈ tables, ∀ r ∈ t, r ∈ mergedRates tables) ∧
    ((∀ t ∈ tables, t.Nodup) → (mergedRates tables).Nodup) := by
  constructor
  · intro t ht r hr
    have hall : r ∈ (tables.flatMap id).dedup :=
      List.mem_dedup.mpr (List.mem_flatMap.mpr ⟨t, ht, hr⟩)
    have hfold : r ∈ tables.foldl mergeOuterRates ((tables.flatMap id).dedup) :=
      foldl_mergeOuter_mem r tables _ hall
    rw [mergedRates]
    exact ((List.perm_insertionSort _ _).mem_iff).mpr hfold
  · intro hnd
    rw [mergedRates]
    refine ((List.perm_insertionSort _ _).nodup_iff).mpr ?_
    have heq : tables.foldl mergeOuterRates ((tables.flatMap id).dedup) =
        (tables.flatMap id).dedup :=
      foldl_mergeOuter_eq _ tables fun t ht =>
        ⟨hnd t ht, fun x hx => List.mem_dedup.mpr (List.mem_flatMap.mpr ⟨t, ht, hx⟩)⟩
    rw [heq]
    exact List.nodup_dedup _

/-- Counterexample to C9 as stated: a single input table with the rate `1`
twice (as happens when two different 4-combinations share the same mean)
produces a merged table with a duplicated rate row. -/
theorem merged_table_duplicate_rates : ¬ (mergedRates [[(1 : ℚ), 1]]).Nodup := by
  decide

/-- Witness for the amended C9: two duplicate-free tables `[2]` and `[3]`
merge into a duplicate-free table containing both rates. -/
theorem merged_table_outer_join_amended_witness :
    ((2 : ℚ) ∈ mergedRates [[2], [3]]) ∧ (mergedRates [[(2 : ℚ)], [3]]).Nodup :=
  ⟨(merged_table_outer_join_amended [[2], [3]]).1 [2] (by decide) 2 (by decide),
    (merged_table_outer_join_amended [[(2 : ℚ)], [3]]).2 (by decide)⟩

end BlueOcean
